import Mathlib

/-!
Verification of `report.py`: a script that parses `info.txt` files and
aggregates symbol/struct-offset records by version prefix.

The embedding models Python string and dict operations explicitly:

* `pytrim`     — Python `str.strip()` (no argument: whitespace);
* `pysplit`    — Python `str.split()` (no argument: runs of whitespace,
                 empties dropped);
* `pysplitDot` — Python `str.split('.')` (empties kept);
* `pysplitSep1` — Python `str.split(sep, 1)` (at most one split, on the
                 first occurrence of `sep`);
* insertion-ordered association lists stand for Python dicts
  (`dlookup`, `hasKey`, `updateAt`).

A file on disk is modelled by `FileContents`: either unreadable (the
`IOError` branch of `parse_info_file`) or a list of lines.  The
directory traversal (`rglob`) is modelled by handing the aggregator the
list of discovered files in traversal order.
-/

/-- Python `str.strip()` on a list of characters. -/
def trimChars (cs : List Char) : List Char :=
  ((cs.dropWhile Char.isWhitespace).reverse.dropWhile Char.isWhitespace).reverse

/-- Python `str.strip()` (whitespace from both ends). -/
def pytrim (s : String) : String :=
  ⟨trimChars s.data⟩

/-- Helper for `pysplit`: splits on runs of whitespace, dropping empty pieces.
`acc` is the current (reversed) in-progress token. -/
def pysplitAux : List Char → List Char → List (List Char)
  | [], acc => if acc.isEmpty then [] else [acc.reverse]
  | c :: cs, acc =>
    if c.isWhitespace then
      if acc.isEmpty then pysplitAux cs [] else acc.reverse :: pysplitAux cs []
    else pysplitAux cs (c :: acc)

/-- Python `str.split()` with no arguments: split on runs of whitespace,
leading/trailing whitespace ignored, no empty tokens. -/
def pysplit (s : String) : List String :=
  (pysplitAux s.data []).map (fun cs => ⟨cs⟩)

/-- Helper for `pysplitDot`: split on a separator character, keeping empty
pieces (Python `str.split('.')`). -/
def splitOnCharAux (sep : Char) : List Char → List Char → List (List Char)
  | [], acc => [acc.reverse]
  | c :: cs, acc =>
    if c = sep then acc.reverse :: splitOnCharAux sep cs []
    else splitOnCharAux sep cs (c :: acc)

/-- Python `str.split('.')`: split on every period, empty pieces kept;
the result is never the empty list. -/
def pysplitDot (s : String) : List String :=
  (splitOnCharAux '.' s.data []).map (fun cs => ⟨cs⟩)

/-- Python `'.'.join(...)`. -/
def joinDot : List String → String
  | [] => ""
  | [x] => x
  | x :: y :: xs => x ++ "." ++ joinDot (y :: xs)

/-- Helper for `pysplitSep1`: scan for the first occurrence of `sep`;
return the text before it and the text after it, or `none` if `sep`
does not occur. -/
def splitFirstAux (sep : List Char) : List Char → List Char → Option (String × String)
  | [], _ => none
  | c :: rest, acc =>
    if sep.isPrefixOf (c :: rest) then
      some (⟨acc.reverse⟩, ⟨(c :: rest).drop sep.length⟩)
    else splitFirstAux sep rest (c :: acc)

/-- Python `s.split(sep, 1)`: split on the first occurrence of `sep` only.
Returns `[s]` when `sep` does not occur, `[before, after]` when it does. -/
def pysplitSep1 (sep : String) (s : String) : List String :=
  match splitFirstAux sep.data s.data [] with
  | some (before, after) => [before, after]
  | none => [s]

/-! ### Data model -/

/-- The result of `parse_info_file` on a readable, non-empty file
(the dictionary returned at the end of the Python function).
`symbols` and `structs` are insertion-ordered association lists from
name to the list of hex-value strings, exactly like Python dicts of lists. -/
structure ParsedRecord where
  version_prefix : String
  build : String
  os : String
  symbols : List (String × List String)
  structs : List (String × List String)
deriving DecidableEq

/-- Accessor for the `version_prefix` field of a `ParsedRecord`. -/
def vpOf (r : ParsedRecord) : String :=
  ParsedRecord.version_prefix r

/-- One value of the aggregated map built by `process_root_directory`. -/
structure AggregatedEntry where
  builds : List String
  os : String
  symbols : List (String × List String)
  structs : List (String × List String)
deriving DecidableEq

/-- A file as the aggregator sees it: either an `IOError` on open/read,
or the list of lines returned by `readlines()`. -/
inductive FileContents where
  | unreadable : FileContents
  | readable (lines : List String) : FileContents
deriving DecidableEq

/-! ### Python-dict operations on insertion-ordered association lists -/

/-- Python `key in dict`. -/
def hasKey {β : Type} : List (String × β) → String → Bool
  | [], _ => false
  | p :: rest, k => if p.1 = k then true else hasKey rest k

/-- Python `dict[key]` as an `Option` (keys in our dicts are unique,
so first match is the binding). -/
def dlookup {β : Type} : List (String × β) → String → Option β
  | [], _ => none
  | p :: rest, k => if p.1 = k then some p.2 else dlookup rest k

/-- Python `dict[key] = f(dict[key])` for a present key: rewrite the
binding in place, preserving insertion order. -/
def updateAt {β : Type} : List (String × β) → String → (β → β) → List (String × β)
  | [], _, _ => []
  | p :: rest, k, f => if p.1 = k then (p.1, f p.2) :: rest else p :: updateAt rest k f

/-- The Python idiom
`if name not in d: d[name] = []` followed by `d[name].append(value)`. -/
def addToMap (m : List (String × List String)) (key value : String) :
    List (String × List String) :=
  let m1 := if hasKey m key then m else m ++ [(key, [])]
  updateAt m1 key (fun l => l ++ [value])

/-! ### Record parser (`parse_info_file`) -/

/-- The body of the symbol loop in `parse_info_file`: split the line on
whitespace; unpacking `hex_value, symbol_name = line.split()` succeeds only
for exactly two tokens, otherwise the `ValueError` is caught and the line
skipped. -/
def processSymbolLine (symbols : List (String × List String)) (line : String) :
    List (String × List String) :=
  match pysplit line with
  | [hex_value, symbol_name] => addToMap symbols symbol_name hex_value
  | _ => symbols

/-- The body of the struct loop in `parse_info_file`: split the line on
whitespace; fewer than three tokens raises (and catches) `ValueError`,
skipping the line; otherwise the first token is the hex value and the
last token the member name. -/
def processStructLine (structs : List (String × List String)) (line : String) :
    List (String × List String) :=
  let parts := pysplit line
  if parts.length < 3 then structs
  else addToMap structs (parts.getLastD "") (parts.headD "")

/-- Python `content_lines = [line.strip() for line in lines[1:] if line.strip()]`:
the stripped, non-blank lines (here applied to `lines[1:]` by the caller). -/
def content_lines (rest : List String) : List String :=
  (rest.map pytrim).filter (fun l => l ≠ "")

/-- The function `parse_info_file`.  An unreadable file and a file with no lines return
`None`.  The header is split on `" - "` with maxsplit 1; list index `[-1]`
takes the last element and `[0]` the first, neither of which can fail on
the non-empty result of `split`, so the `except IndexError` branch of the
Python code is unreachable.  The version token is split on `'.'`;
`version_prefix` rejoins all but the last component and `build` is the
last component.  The first 7 stripped non-blank content lines feed the
symbol loop, the rest the struct loop. -/
def parse_info_file (file : FileContents) : Option ParsedRecord :=
  match file with
  | .unreadable => none
  | .readable lines =>
    if lines.isEmpty then none
    else
      let first_line := pytrim (lines.headD "")
      let header_parts := pysplitSep1 " - " first_line
      let version_part := header_parts.getLastD ""
      let version_parts := pysplitDot version_part
      let vp := joinDot version_parts.dropLast
      let os_val := header_parts.headD ""
      let build_val := version_parts.getLastD ""
      let cl := content_lines (lines.drop 1)
      let symbols := (cl.take 7).foldl processSymbolLine []
      let structs := (cl.drop 7).foldl processStructLine []
      some ⟨vp, build_val, os_val, symbols, structs⟩

/-! ### Aggregator (`process_root_directory`) -/

/-- Python `new_hexes = [h for h in hex_values if h not in existing_hexes]`
followed by `existing.extend(new_hexes)`: append the incoming values that
are not already present in the existing list.  Note that incoming values
are only checked against the existing list, not against each other. -/
def mergeHexValues (existing newVals : List String) : List String :=
  existing ++ newVals.filter (fun h => decide (h ∉ existing))

/-- One iteration of the per-file merge loop for one of the
`symbols`/`structs` maps: create the name in the aggregate if absent, then
extend its list with the not-yet-present hex values. -/
def mergeMapStep (acc : List (String × List String)) (p : String × List String) :
    List (String × List String) :=
  let acc1 := if hasKey acc p.1 then acc else acc ++ [(p.1, [])]
  updateAt acc1 p.1 (fun ex => mergeHexValues ex p.2)

/-- The per-file merge loop for one of the `symbols`/`structs` maps:
for each name in the file's map (in insertion order), run `mergeMapStep`. -/
def mergeMap (aggMap fileMap : List (String × List String)) :
    List (String × List String) :=
  fileMap.foldl mergeMapStep aggMap

/-- Folding one successfully parsed record into the aggregate: create the
version-prefix entry (with this record's os and build) if absent, else
append the build; then merge the symbol and struct maps. -/
def mergeRecord (agg : List (String × AggregatedEntry)) (r : ParsedRecord) :
    List (String × AggregatedEntry) :=
  let vp := vpOf r
  let agg1 :=
    if hasKey agg vp then
      updateAt agg vp (fun e => { e with builds := e.builds ++ [r.build] })
    else
      agg ++ [(vp, ⟨[r.build], r.os, [], []⟩)]
  updateAt agg1 vp (fun e =>
    { e with
      symbols := mergeMap e.symbols r.symbols
      structs := mergeMap e.structs r.structs })

/-- One iteration of the traversal loop: parse the file; on failure
(`None`) skip it, otherwise merge the record. -/
def mergeStep (agg : List (String × AggregatedEntry)) (file : FileContents) :
    List (String × AggregatedEntry) :=
  match parse_info_file file with
  | none => agg
  | some r => mergeRecord agg r

/-- The function `process_root_directory`: fold every discovered `info.txt` (given in
traversal order) into the initially empty aggregate. -/
def process_root_directory (files : List FileContents) :
    List (String × AggregatedEntry) :=
  files.foldl mergeStep []

/-! ### Derived observations used by the statements -/

/-- Does this file parse successfully to a record with version prefix `p`? -/
def parsesToPrefix (p : String) (f : FileContents) : Bool :=
  match parse_info_file f with
  | some r => decide (vpOf r = p)
  | none => false

/-- Length of the `builds` list stored at version prefix `p`
(0 when the prefix is absent). -/
def buildsCountAt (agg : List (String × AggregatedEntry)) (p : String) : Nat :=
  match dlookup agg p with
  | some e => e.builds.length
  | none => 0

/-- The `os` stored at version prefix `p`, when the entry exists. -/
def osAt (agg : List (String × AggregatedEntry)) (p : String) : Option String :=
  (dlookup agg p).map (fun e => e.os)

/-- The `os` of the first file (in traversal order) that parses successfully
to version prefix `p`. -/
def firstOsFor : List FileContents → String → Option String
  | [], _ => none
  | f :: rest, p =>
    match parse_info_file f with
    | some r => if vpOf r = p then some r.os else firstOsFor rest p
    | none => firstOsFor rest p

/-- Every hex-value list in a name-indexed map is duplicate-free. -/
def valuesNodup (m : List (String × List String)) : Prop :=
  ∀ p ∈ m, p.2.Nodup

/-- Both maps of a parsed record have duplicate-free hex-value lists. -/
def recordValuesNodup (r : ParsedRecord) : Prop :=
  valuesNodup r.symbols ∧ valuesNodup r.structs

/-- Every entry of the aggregate has duplicate-free hex-value lists in both
its `symbols` and its `structs` map. -/
def aggValuesNodup (agg : List (String × AggregatedEntry)) : Prop :=
  ∀ p ∈ agg, valuesNodup p.2.symbols ∧ valuesNodup p.2.structs

instance (m : List (String × List String)) : Decidable (valuesNodup m) :=
  inferInstanceAs (Decidable (∀ p ∈ m, p.2.Nodup))

instance (r : ParsedRecord) : Decidable (recordValuesNodup r) :=
  inferInstanceAs (Decidable (valuesNodup r.symbols ∧ valuesNodup r.structs))

instance (agg : List (String × AggregatedEntry)) : Decidable (aggValuesNodup agg) :=
  inferInstanceAs (Decidable (∀ p ∈ agg, valuesNodup p.2.symbols ∧ valuesNodup p.2.structs))

/-! ### Association-list (Python dict) lemmas -/

theorem hasKey_eq_isSome {β : Type} (m : List (String × β)) (k : String) :
    hasKey m k = (dlookup m k).isSome := by
  induction m with
  | nil => rfl
  | cons p rest ih => by_cases h : p.1 = k <;> simp [hasKey, dlookup, h, ih]

theorem dlookup_updateAt_self {β : Type} (m : List (String × β)) (k : String) (f : β → β) :
    dlookup (updateAt m k f) k = (dlookup m k).map f := by
  induction m with
  | nil => rfl
  | cons p rest ih => by_cases h : p.1 = k <;> simp [updateAt, dlookup, h, ih]

theorem dlookup_updateAt_ne {β : Type} (m : List (String × β)) (k q : String) (f : β → β)
    (h : q ≠ k) : dlookup (updateAt m k f) q = dlookup m q := by
  induction m with
  | nil => rfl
  | cons p rest ih =>
    by_cases h1 : p.1 = k
    · subst h1
      have h2 : ¬ p.1 = q := fun hq => h (hq ▸ rfl)
      simp [updateAt, dlookup, h2]
    · by_cases h2 : p.1 = q <;> simp [updateAt, dlookup, h, h1, h2, ih]

theorem hasKey_updateAt {β : Type} (m : List (String × β)) (k q : String) (f : β → β) :
    hasKey (updateAt m k f) q = hasKey m q := by
  rw [hasKey_eq_isSome, hasKey_eq_isSome]
  by_cases h : q = k
  · subst h; rw [dlookup_updateAt_self]; cases dlookup m q <;> rfl
  · rw [dlookup_updateAt_ne _ _ _ _ h]

theorem dlookup_append {β : Type} (m m2 : List (String × β)) (q : String) :
    dlookup (m ++ m2) q = if hasKey m q then dlookup m q else dlookup m2 q := by
  induction m with
  | nil => simp [dlookup, hasKey]
  | cons p rest ih => by_cases h : p.1 = q <;> simp [dlookup, hasKey, h, ih]

theorem hasKey_append {β : Type} (m m2 : List (String × β)) (q : String) :
    hasKey (m ++ m2) q = (hasKey m q || hasKey m2 q) := by
  induction m with
  | nil => simp [hasKey]
  | cons p rest ih => by_cases h : p.1 = q <;> simp [hasKey, h, ih]

theorem dlookup_singleton {β : Type} (k q : String) (e : β) :
    dlookup [(k, e)] q = if k = q then some e else none := by
  simp [dlookup]

theorem dlookup_eq_none_of_hasKey_false {β : Type} (m : List (String × β)) (k : String)
    (h : hasKey m k = false) : dlookup m k = none := by
  have hs := hasKey_eq_isSome m k
  rw [h] at hs
  cases hl : dlookup m k with
  | none => rfl
  | some e => rw [hl] at hs; simp at hs

theorem dlookup_exists_of_hasKey {β : Type} (m : List (String × β)) (k : String)
    (h : hasKey m k = true) : ∃ e, dlookup m k = some e := by
  have hs := hasKey_eq_isSome m k
  rw [h] at hs
  cases hl : dlookup m k with
  | none => rw [hl] at hs; simp at hs
  | some e => exact ⟨e, rfl⟩

/-! ### Builds counting (claim C4) -/

theorem buildsCountAt_mergeRecord (agg : List (String × AggregatedEntry))
    (r : ParsedRecord) (p : String) :
    buildsCountAt (mergeRecord agg r) p =
      buildsCountAt agg p + (if vpOf r = p then 1 else 0) := by
  unfold mergeRecord buildsCountAt
  by_cases hvp : vpOf r = p
  · subst hvp
    cases hk : hasKey agg (vpOf r) with
    | true =>
      obtain ⟨e, hl⟩ := dlookup_exists_of_hasKey agg (vpOf r) hk
      simp only [hk, if_true, dlookup_updateAt_self]
      simp [hl]
    | false =>
      have hl := dlookup_eq_none_of_hasKey_false agg (vpOf r) hk
      simp only [hk, Bool.false_eq_true, if_false, dlookup_updateAt_self, dlookup_append,
        dlookup_singleton]
      simp [hk, hl]
  · have hvp2 : p ≠ vpOf r := fun hq => hvp hq.symm
    cases hk : hasKey agg (vpOf r) with
    | true =>
      simp only [hk, if_true]
      rw [dlookup_updateAt_ne _ _ _ _ hvp2, dlookup_updateAt_ne _ _ _ _ hvp2]
      simp [hvp]
    | false =>
      simp only [hk, Bool.false_eq_true, if_false]
      rw [dlookup_updateAt_ne _ _ _ _ hvp2, dlookup_append, dlookup_singleton]
      cases hkp : hasKey agg p with
      | true => simp [hvp]
      | false =>
        have hl := dlookup_eq_none_of_hasKey_false agg p hkp
        simp [hvp, hl]

theorem buildsCountAt_foldl (files : List FileContents)
    (acc : List (String × AggregatedEntry)) (p : String) :
    buildsCountAt (List.foldl mergeStep acc files) p =
      buildsCountAt acc p + List.countP (parsesToPrefix p) files := by
  induction files generalizing acc with
  | nil => simp
  | cons f rest ih =>
    rw [List.foldl_cons, ih, List.countP_cons]
    unfold mergeStep parsesToPrefix
    cases hp : parse_info_file f with
    | none => simp
    | some r =>
      rw [buildsCountAt_mergeRecord]
      by_cases h : vpOf r = p <;> simp [h] <;> omega

/-- C4: for every version prefix, the length of its `builds` list in the
final aggregate equals the number of files that successfully parsed to that
prefix (one build appended per contributing file, duplicates permitted). -/
theorem c4_builds_count (files : List FileContents) (p : String) :
    buildsCountAt (process_root_directory files) p =
      List.countP (parsesToPrefix p) files := by
  rw [process_root_directory, buildsCountAt_foldl]
  simp [buildsCountAt, dlookup]

/-! ### First-established os (claim C8) -/

theorem osAt_mergeRecord (agg : List (String × AggregatedEntry))
    (r : ParsedRecord) (p : String) :
    osAt (mergeRecord agg r) p =
      match osAt agg p with
      | some o => some o
      | none => if vpOf r = p then some r.os else none := by
  unfold mergeRecord osAt
  by_cases hvp : vpOf r = p
  · subst hvp
    cases hk : hasKey agg (vpOf r) with
    | true =>
      obtain ⟨e, hl⟩ := dlookup_exists_of_hasKey agg (vpOf r) hk
      simp only [hk, if_true, dlookup_updateAt_self]
      simp [hl]
    | false =>
      have hl := dlookup_eq_none_of_hasKey_false agg (vpOf r) hk
      simp only [hk, Bool.false_eq_true, if_false, dlookup_updateAt_self, dlookup_append,
        dlookup_singleton]
      simp [hk, hl]
  · have hvp2 : p ≠ vpOf r := fun hq => hvp hq.symm
    cases hk : hasKey agg (vpOf r) with
    | true =>
      simp only [hk, if_true]
      rw [dlookup_updateAt_ne _ _ _ _ hvp2, dlookup_updateAt_ne _ _ _ _ hvp2]
      cases dlookup agg p <;> simp [hvp]
    | false =>
      simp only [hk, Bool.false_eq_true, if_false]
      rw [dlookup_updateAt_ne _ _ _ _ hvp2, dlookup_append, dlookup_singleton]
      cases hkp : hasKey agg p with
      | true =>
        obtain ⟨e, hl⟩ := dlookup_exists_of_hasKey agg p hkp
        simp [hl]
      | false =>
        have hl := dlookup_eq_none_of_hasKey_false agg p hkp
        simp [hvp, hl]

theorem osAt_foldl (files : List FileContents)
    (acc : List (String × AggregatedEntry)) (p : String) :
    osAt (List.foldl mergeStep acc files) p =
      match osAt acc p with
      | some o => some o
      | none => firstOsFor files p := by
  induction files generalizing acc with
  | nil => cases ho : osAt acc p <;> simp [firstOsFor, ho]
  | cons f rest ih =>
    rw [List.foldl_cons]
    cases hp : parse_info_file f with
    | none =>
      have hstep : mergeStep acc f = acc := by unfold mergeStep; rw [hp]
      have hfo : firstOsFor (f :: rest) p = firstOsFor rest p := by
        simp only [firstOsFor, hp]
      rw [hstep, ih, hfo]
    | some r =>
      have hstep : mergeStep acc f = mergeRecord acc r := by unfold mergeStep; rw [hp]
      have hfo : firstOsFor (f :: rest) p =
          if vpOf r = p then some r.os else firstOsFor rest p := by
        simp only [firstOsFor, hp]
      rw [hstep, ih, osAt_mergeRecord, hfo]
      cases ho : osAt acc p with
      | some o => rfl
      | none => by_cases h : vpOf r = p <;> simp [h]

/-- C8: the `os` of a version-prefix entry in the final aggregate is the os
of the file that first established the entry; merging later files never
modifies it. -/
theorem c8_os_first_established (files : List FileContents) (p : String)
    (e : AggregatedEntry)
    (h : dlookup (process_root_directory files) p = some e) :
    firstOsFor files p = some e.os := by
  have h2 := osAt_foldl files [] p
  rw [show List.foldl mergeStep [] files = process_root_directory files from rfl] at h2
  rw [osAt, h] at h2
  simpa [osAt, dlookup] using h2.symm

/-- Witness for C8: two files share the prefix `1.2`; the entry keeps the
first file's os `A`. -/
theorem c8_os_first_established_witness :
    dlookup
        (process_root_directory
          [FileContents.readable ["A - 1.2.1"], FileContents.readable ["B - 1.2.2"]])
        "1.2" =
      some ⟨["1", "2"], "A", [], []⟩
    ∧ firstOsFor
        [FileContents.readable ["A - 1.2.1"], FileContents.readable ["B - 1.2.2"]]
        "1.2" =
      some (AggregatedEntry.os ⟨["1", "2"], "A", [], []⟩) :=
  ⟨by decide,
   c8_os_first_established
     [FileContents.readable ["A - 1.2.1"], FileContents.readable ["B - 1.2.2"]]
     "1.2" ⟨["1", "2"], "A", [], []⟩ (by decide)⟩

/-! ### Failed parses contribute nothing (claim C5) -/

/-- C5: a file whose parse fails leaves the accumulator completely unchanged
and traversal continues with the remaining files; a zero-line file and an
unreadable file are such failures. -/
theorem c5_failed_parse_skipped (acc : List (String × AggregatedEntry))
    (f : FileContents) (rest : List FileContents)
    (h : parse_info_file f = none) :
    List.foldl mergeStep acc (f :: rest) = List.foldl mergeStep acc rest
    ∧ parse_info_file (FileContents.readable []) = none
    ∧ parse_info_file FileContents.unreadable = none := by
  refine ⟨?_, rfl, rfl⟩
  rw [List.foldl_cons]
  unfold mergeStep
  rw [h]

/-- Witness for C5 at an unreadable file followed by a well-formed file. -/
theorem c5_failed_parse_skipped_witness :
    parse_info_file FileContents.unreadable = none
    ∧ (List.foldl mergeStep []
          [FileContents.unreadable, FileContents.readable ["Win - 1.2.100"]] =
        List.foldl mergeStep [] [FileContents.readable ["Win - 1.2.100"]]
      ∧ parse_info_file (FileContents.readable []) = none
      ∧ parse_info_file FileContents.unreadable = none) :=
  ⟨by decide,
   c5_failed_parse_skipped [] FileContents.unreadable
     [FileContents.readable ["Win - 1.2.100"]] (by decide)⟩

/-! ### Missing separator is not rejected (claim C1) -/

/-- C1: contrary to the claim, a file whose first line lacks the `" - "`
separator is not rejected: `split(" - ", 1)[-1]` returns the whole line, so
no `IndexError` occurs, the file parses to a record (with the whole header
as both os and version token) and contributes an entry to the aggregate. -/
theorem c1_missing_separator_not_rejected :
    parse_info_file (FileContents.readable ["Windows 10 1903"]) =
      some ⟨"", "Windows 10 1903", "Windows 10 1903", [], []⟩
    ∧ process_root_directory [FileContents.readable ["Windows 10 1903"]] =
        [("", ⟨["Windows 10 1903"], "Windows 10 1903", [], []⟩)] := by
  constructor <;> decide

/-! ### Per-line error handling (claim C7) -/

/-- C7: a symbol line that does not split into exactly two tokens, and a
struct line with fewer than three tokens, are skipped individually while
the rest of the file is still processed; a well-formed struct line records
the first token as hex value and the last as member name, middle tokens
discarded.  All content-line processing is total (no exception escapes). -/
theorem c7_per_line_errors :
    (∀ symbols line, (pysplit line).length ≠ 2 →
      processSymbolLine symbols line = symbols)
    ∧ (∀ structs line, (pysplit line).length < 3 →
        processStructLine structs line = structs)
    ∧ (∀ structs line, 3 ≤ (pysplit line).length →
        processStructLine structs line =
          addToMap structs ((pysplit line).getLastD "") ((pysplit line).headD ""))
    ∧ (∀ acc line rest, (pysplit line).length ≠ 2 →
        List.foldl processSymbolLine acc (line :: rest) =
          List.foldl processSymbolLine acc rest)
    ∧ (∀ acc line rest, (pysplit line).length < 3 →
        List.foldl processStructLine acc (line :: rest) =
          List.foldl processStructLine acc rest) := by
  have h1 : ∀ symbols line, (pysplit line).length ≠ 2 →
      processSymbolLine symbols line = symbols := by
    intro symbols line h
    rcases hs : pysplit line with _ | ⟨a, _ | ⟨b, _ | ⟨c, t⟩⟩⟩
    · simp [processSymbolLine, hs]
    · simp [processSymbolLine, hs]
    · rw [hs] at h; simp at h
    · simp [processSymbolLine, hs]
  have h2 : ∀ structs line, (pysplit line).length < 3 →
      processStructLine structs line = structs := by
    intro structs line h
    simp [processStructLine, h]
  have h3 : ∀ structs line, 3 ≤ (pysplit line).length →
      processStructLine structs line =
        addToMap structs ((pysplit line).getLastD "") ((pysplit line).headD "") := by
    intro structs line h
    have h4 : ¬ (pysplit line).length < 3 := by omega
    simp [processStructLine, h4]
  refine ⟨h1, h2, h3, ?_, ?_⟩
  · intro acc line rest h
    rw [List.foldl_cons, h1 _ _ h]
  · intro acc line rest h
    rw [List.foldl_cons, h2 _ _ h]

/-- Witness for C7 on concrete malformed and well-formed lines. -/
theorem c7_per_line_errors_witness :
    (pysplit "0xA SomeType name").length ≠ 2
    ∧ processSymbolLine [("Foo", ["0x1"])] "0xA SomeType name" = [("Foo", ["0x1"])]
    ∧ (pysplit "0xB name").length < 3
    ∧ processStructLine [("m", ["0x2"])] "0xB name" = [("m", ["0x2"])]
    ∧ 3 ≤ (pysplit "0xC SomeType member_x").length
    ∧ processStructLine [] "0xC SomeType member_x" =
        addToMap [] ((pysplit "0xC SomeType member_x").getLastD "")
          ((pysplit "0xC SomeType member_x").headD "") :=
  ⟨by decide, c7_per_line_errors.1 _ _ (by decide), by decide,
   c7_per_line_errors.2.1 _ _ (by decide), by decide,
   c7_per_line_errors.2.2.1 _ _ (by decide)⟩

/-! ### Fewer than 7 content lines (claim C10) -/

/-- C10: a file with a valid header and fewer than 7 non-blank content
lines parses successfully; all available content lines are treated as
symbol lines and the record's structs map is empty. -/
theorem c10_short_files_parse (hd : String) (rest : List String)
    (hsep : (pysplitSep1 " - " (pytrim hd)).length = 2)
    (h7 : (content_lines rest).length < 7) :
    ∃ r, parse_info_file (FileContents.readable (hd :: rest)) = some r
      ∧ r.structs = []
      ∧ r.symbols = List.foldl processSymbolLine [] (content_lines rest) := by
  have hd7 : (content_lines rest).drop 7 = [] :=
    List.drop_eq_nil_of_le (by omega)
  have ht7 : (content_lines rest).take 7 = content_lines rest :=
    List.take_of_length_le (by omega)
  have hp : parse_info_file (FileContents.readable (hd :: rest)) =
      some ⟨joinDot (pysplitDot ((pysplitSep1 " - " (pytrim hd)).getLastD "")).dropLast,
            (pysplitDot ((pysplitSep1 " - " (pytrim hd)).getLastD "")).getLastD "",
            (pysplitSep1 " - " (pytrim hd)).headD "",
            List.foldl processSymbolLine [] ((content_lines rest).take 7),
            List.foldl processStructLine [] ((content_lines rest).drop 7)⟩ := rfl
  refine ⟨_, hp, ?_, ?_⟩
  · show List.foldl processStructLine [] ((content_lines rest).drop 7) = []
    rw [hd7]; rfl
  · show List.foldl processSymbolLine [] ((content_lines rest).take 7) =
        List.foldl processSymbolLine [] (content_lines rest)
    rw [ht7]

/-- Witness for C10: a valid header with a single content line. -/
theorem c10_short_files_parse_witness :
    (pysplitSep1 " - " (pytrim "Win - 1.2.100")).length = 2
    ∧ (content_lines ["0xA Foo"]).length < 7
    ∧ ∃ r, parse_info_file (FileContents.readable ["Win - 1.2.100", "0xA Foo"]) = some r
        ∧ r.structs = []
        ∧ r.symbols = List.foldl processSymbolLine [] (content_lines ["0xA Foo"]) :=
  ⟨by decide, by decide,
   c10_short_files_parse "Win - 1.2.100" ["0xA Foo"] (by decide) (by decide)⟩

/-! ### Version-token splitting and rejoining (claims C3 and C9) -/

theorem splitOnCharAux_ne_nil (sep : Char) (cs acc : List Char) :
    splitOnCharAux sep cs acc ≠ [] := by
  induction cs generalizing acc with
  | nil => simp [splitOnCharAux]
  | cons c cs ih => by_cases h : c = sep <;> simp [splitOnCharAux, h, ih]

theorem joinDot_cons_of_ne_nil (x : String) (l : List String) (h : l ≠ []) :
    joinDot (x :: l) = x ++ "." ++ joinDot l := by
  cases l with
  | nil => exact absurd rfl h
  | cons y ys => rfl

theorem mk_append_mk (a b : List Char) : (⟨a⟩ : String) ++ ⟨b⟩ = ⟨a ++ b⟩ := rfl

theorem joinDot_splitOnCharAux (cs acc : List Char) :
    joinDot ((splitOnCharAux '.' cs acc).map (fun l => (⟨l⟩ : String))) =
      ⟨acc.reverse ++ cs⟩ := by
  induction cs generalizing acc with
  | nil => simp [splitOnCharAux, joinDot]
  | cons c cs ih =>
    by_cases h : c = '.'
    · subst h
      have hne : (splitOnCharAux '.' cs []).map (fun l => (⟨l⟩ : String)) ≠ [] := by
        simp [splitOnCharAux_ne_nil]
      show joinDot
          (List.map (fun l => (⟨l⟩ : String)) (acc.reverse :: splitOnCharAux '.' cs [])) =
        ⟨acc.reverse ++ '.' :: cs⟩
      rw [List.map_cons, joinDot_cons_of_ne_nil _ _ hne, ih,
        show ("." : String) = (⟨['.']⟩ : String) from rfl, mk_append_mk, mk_append_mk]
      exact congrArg (fun l => (⟨l⟩ : String)) (by simp)
    · simp only [splitOnCharAux, if_neg h]
      rw [ih]
      simp [List.reverse_cons, List.append_assoc]

theorem joinDot_pysplitDot (s : String) : joinDot (pysplitDot s) = s := by
  rw [pysplitDot, joinDot_splitOnCharAux]
  simp only [List.reverse_nil, List.nil_append]

theorem two_le_splitOnCharAux_length (cs acc : List Char) (h : '.' ∈ cs) :
    2 ≤ (splitOnCharAux '.' cs acc).length := by
  induction cs generalizing acc with
  | nil => simp at h
  | cons c cs ih =>
    by_cases hc : c = '.'
    · subst hc
      show 2 ≤ (acc.reverse :: splitOnCharAux '.' cs []).length
      simp only [List.length_cons]
      have h2 := List.length_pos.mpr (splitOnCharAux_ne_nil '.' cs [])
      omega
    · have h2 : '.' ∈ cs := by
        rcases List.mem_cons.mp h with h3 | h3
        · exact absurd h3.symm hc
        · exact h3
      simp only [splitOnCharAux, if_neg hc]
      exact ih _ h2

theorem splitOnCharAux_of_not_mem (cs acc : List Char) (h : '.' ∉ cs) :
    splitOnCharAux '.' cs acc = [acc.reverse ++ cs] := by
  induction cs generalizing acc with
  | nil => simp [splitOnCharAux]
  | cons c cs ih =>
    have hc : ¬ c = '.' := fun he => h (he ▸ List.mem_cons_self c cs)
    have h2 : '.' ∉ cs := fun hm => h (List.mem_cons_of_mem _ hm)
    simp only [splitOnCharAux, if_neg hc]
    rw [ih _ h2]
    simp [List.reverse_cons, List.append_assoc]

theorem joinDot_dropLast_getLastD (l : List String) (h : 2 ≤ l.length) :
    joinDot l.dropLast ++ "." ++ l.getLastD "" = joinDot l := by
  induction l with
  | nil => simp at h
  | cons x xs ih =>
    cases xs with
    | nil => simp at h
    | cons y ys =>
      cases ys with
      | nil => rfl
      | cons z zs =>
        have ihy := ih (by simp)
        have hdl : (x :: y :: z :: zs).dropLast = x :: (y :: z :: zs).dropLast := rfl
        have hgl : (x :: y :: z :: zs).getLastD "" = (y :: z :: zs).getLastD "" := by
          rw [List.getLastD_eq_getLast?, List.getLastD_eq_getLast?, List.getLast?_cons_cons]
        have hne : (y :: z :: zs).dropLast ≠ [] := by
          simp [List.dropLast_cons₂]
        rw [hdl, hgl, joinDot_cons_of_ne_nil _ _ hne,
          joinDot_cons_of_ne_nil _ _ (by simp : (y :: z :: zs) ≠ ([] : List String)),
          ← ihy]
        simp [String.append_assoc]

/-- C3: for a well-formed file (header has the `" - "` separator and the
version token contains a period), the parsed version prefix, a period, and
the parsed build concatenate back to the original version token (the header
text after `" - "`). -/
theorem c3_version_reconstruction (lines : List String) (r : ParsedRecord)
    (hp : parse_info_file (FileContents.readable lines) = some r)
    (hsep : (pysplitSep1 " - " (pytrim (lines.headD ""))).length = 2)
    (hdot : '.' ∈ ((pysplitSep1 " - " (pytrim (lines.headD ""))).getLastD "").data) :
    vpOf r ++ "." ++ r.build =
      (pysplitSep1 " - " (pytrim (lines.headD ""))).getLastD "" := by
  cases lines with
  | nil => simp [parse_info_file] at hp
  | cons hd tl =>
    simp only [List.headD_cons] at hdot ⊢
    have hp2 : parse_info_file (FileContents.readable (hd :: tl)) =
        some ⟨joinDot (pysplitDot ((pysplitSep1 " - " (pytrim hd)).getLastD "")).dropLast,
              (pysplitDot ((pysplitSep1 " - " (pytrim hd)).getLastD "")).getLastD "",
              (pysplitSep1 " - " (pytrim hd)).headD "",
              List.foldl processSymbolLine [] ((content_lines tl).take 7),
              List.foldl processStructLine [] ((content_lines tl).drop 7)⟩ := rfl
    rw [hp2] at hp
    obtain rfl := Option.some.inj hp
    show joinDot (pysplitDot ((pysplitSep1 " - " (pytrim hd)).getLastD "")).dropLast
        ++ "." ++ (pysplitDot ((pysplitSep1 " - " (pytrim hd)).getLastD "")).getLastD ""
      = (pysplitSep1 " - " (pytrim hd)).getLastD ""
    have h2 : 2 ≤ (pysplitDot ((pysplitSep1 " - " (pytrim hd)).getLastD "")).length := by
      rw [pysplitDot, List.length_map]
      exact two_le_splitOnCharAux_length _ _ hdot
    rw [joinDot_dropLast_getLastD _ h2, joinDot_pysplitDot]

/-- Witness for C3 at the file `"Win - 1.2.100"`. -/
theorem c3_version_reconstruction_witness :
    parse_info_file (FileContents.readable ["Win - 1.2.100"]) =
      some ⟨"1.2", "100", "Win", [], []⟩
    ∧ (pysplitSep1 " - " (pytrim (["Win - 1.2.100"].headD ""))).length = 2
    ∧ '.' ∈ ((pysplitSep1 " - " (pytrim (["Win - 1.2.100"].headD ""))).getLastD "").data
    ∧ vpOf ⟨"1.2", "100", "Win", [], []⟩ ++ "."
          ++ ParsedRecord.build ⟨"1.2", "100", "Win", [], []⟩ =
        (pysplitSep1 " - " (pytrim (["Win - 1.2.100"].headD ""))).getLastD "" :=
  ⟨by decide, by decide, by decide,
   c3_version_reconstruction ["Win - 1.2.100"] ⟨"1.2", "100", "Win", [], []⟩
     (by decide) (by decide) (by decide)⟩

/-! ### Dotless version tokens (claim C9) -/

theorem hasKey_mergeRecord_self (agg : List (String × AggregatedEntry)) (r : ParsedRecord) :
    hasKey (mergeRecord agg r) (vpOf r) = true := by
  unfold mergeRecord
  cases hk : hasKey agg (vpOf r) with
  | true =>
    simp only [hk, if_true]
    rw [hasKey_updateAt, hasKey_updateAt, hk]
  | false =>
    simp only [hk, Bool.false_eq_true, if_false]
    rw [hasKey_updateAt, hasKey_append]
    simp [hasKey]

theorem hasKey_mergeRecord_of_vp_empty (agg : List (String × AggregatedEntry))
    (r : ParsedRecord) (h : vpOf r = "") : hasKey (mergeRecord agg r) "" = true := by
  rw [← h]
  exact hasKey_mergeRecord_self agg r

/-- C9: a file whose header has the `" - "` separator but whose version
token contains no period parses successfully (it is not rejected); the
version prefix is the empty string, the build is the whole version token,
and merging the record always puts it under the empty-string key. -/
theorem c9_dotless_token_accepted (lines : List String) (hne : lines ≠ [])
    (hsep : (pysplitSep1 " - " (pytrim (lines.headD ""))).length = 2)
    (hdot : '.' ∉ ((pysplitSep1 " - " (pytrim (lines.headD ""))).getLastD "").data) :
    ∃ r, parse_info_file (FileContents.readable lines) = some r
      ∧ vpOf r = ""
      ∧ r.build = (pysplitSep1 " - " (pytrim (lines.headD ""))).getLastD ""
      ∧ ∀ agg, hasKey (mergeRecord agg r) "" = true := by
  cases lines with
  | nil => exact absurd rfl hne
  | cons hd tl =>
    simp only [List.headD_cons] at hdot ⊢
    have hsplit : pysplitDot ((pysplitSep1 " - " (pytrim hd)).getLastD "") =
        [(pysplitSep1 " - " (pytrim hd)).getLastD ""] := by
      rw [pysplitDot, splitOnCharAux_of_not_mem _ _ hdot]
      simp only [List.map_cons, List.map_nil, List.reverse_nil, List.nil_append]
    have hvp0 : joinDot
        (pysplitDot ((pysplitSep1 " - " (pytrim hd)).getLastD "")).dropLast = "" := by
      rw [hsplit]
      rfl
    have hp : parse_info_file (FileContents.readable (hd :: tl)) =
        some ⟨joinDot (pysplitDot ((pysplitSep1 " - " (pytrim hd)).getLastD "")).dropLast,
              (pysplitDot ((pysplitSep1 " - " (pytrim hd)).getLastD "")).getLastD "",
              (pysplitSep1 " - " (pytrim hd)).headD "",
              List.foldl processSymbolLine [] ((content_lines tl).take 7),
              List.foldl processStructLine [] ((content_lines tl).drop 7)⟩ := rfl
    refine ⟨_, hp, ?_, ?_, ?_⟩
    · exact hvp0
    · show (pysplitDot ((pysplitSep1 " - " (pytrim hd)).getLastD "")).getLastD "" =
          (pysplitSep1 " - " (pytrim hd)).getLastD ""
      rw [hsplit]
      rfl
    · intro agg
      exact hasKey_mergeRecord_of_vp_empty agg _ hvp0

/-- Witness for C9 at the file `"Win - 100"`. -/
theorem c9_dotless_token_accepted_witness :
    (["Win - 100"] ≠ ([] : List String))
    ∧ (pysplitSep1 " - " (pytrim (["Win - 100"].headD ""))).length = 2
    ∧ '.' ∉ ((pysplitSep1 " - " (pytrim (["Win - 100"].headD ""))).getLastD "").data
    ∧ ∃ r, parse_info_file (FileContents.readable ["Win - 100"]) = some r
        ∧ vpOf r = ""
        ∧ r.build = (pysplitSep1 " - " (pytrim (["Win - 100"].headD ""))).getLastD ""
        ∧ ∀ agg, hasKey (mergeRecord agg r) "" = true :=
  ⟨by decide, by decide, by decide,
   c9_dotless_token_accepted ["Win - 100"] (by decide) (by decide) (by decide)⟩

/-! ### Blank lines and the 7-line cutoff (claim C6) -/

/-- C6: blank lines anywhere after the header are discarded before the
cutoff is applied (inserting a blank line never changes the parse result,
so blanks never count toward the 7-line budget), and the record's symbols
come from exactly the first 7 stripped non-blank content lines while its
structs come from all subsequent ones. -/
theorem c6_seven_line_cutoff :
    (∀ hd pre post b, pytrim b = "" →
      parse_info_file (FileContents.readable (hd :: (pre ++ b :: post))) =
        parse_info_file (FileContents.readable (hd :: (pre ++ post))))
    ∧ (∀ hd rest r, parse_info_file (FileContents.readable (hd :: rest)) = some r →
        r.symbols = List.foldl processSymbolLine [] ((content_lines rest).take 7)
        ∧ r.structs = List.foldl processStructLine [] ((content_lines rest).drop 7)) := by
  constructor
  · intro hd pre post b hb
    have hcl : content_lines (pre ++ b :: post) = content_lines (pre ++ post) := by
      simp [content_lines, hb]
    have h1 : parse_info_file (FileContents.readable (hd :: (pre ++ b :: post))) =
        some ⟨joinDot (pysplitDot ((pysplitSep1 " - " (pytrim hd)).getLastD "")).dropLast,
              (pysplitDot ((pysplitSep1 " - " (pytrim hd)).getLastD "")).getLastD "",
              (pysplitSep1 " - " (pytrim hd)).headD "",
              List.foldl processSymbolLine [] ((content_lines (pre ++ b :: post)).take 7),
              List.foldl processStructLine []
                ((content_lines (pre ++ b :: post)).drop 7)⟩ := rfl
    have h2 : parse_info_file (FileContents.readable (hd :: (pre ++ post))) =
        some ⟨joinDot (pysplitDot ((pysplitSep1 " - " (pytrim hd)).getLastD "")).dropLast,
              (pysplitDot ((pysplitSep1 " - " (pytrim hd)).getLastD "")).getLastD "",
              (pysplitSep1 " - " (pytrim hd)).headD "",
              List.foldl processSymbolLine [] ((content_lines (pre ++ post)).take 7),
              List.foldl processStructLine [] ((content_lines (pre ++ post)).drop 7)⟩ := rfl
    rw [h1, h2, hcl]
  · intro hd rest r hp
    have hp2 : parse_info_file (FileContents.readable (hd :: rest)) =
        some ⟨joinDot (pysplitDot ((pysplitSep1 " - " (pytrim hd)).getLastD "")).dropLast,
              (pysplitDot ((pysplitSep1 " - " (pytrim hd)).getLastD "")).getLastD "",
              (pysplitSep1 " - " (pytrim hd)).headD "",
              List.foldl processSymbolLine [] ((content_lines rest).take 7),
              List.foldl processStructLine [] ((content_lines rest).drop 7)⟩ := rfl
    rw [hp2] at hp
    obtain rfl := Option.some.inj hp
    exact ⟨rfl, rfl⟩

/-- Witness for C6: a blank line between two content lines is discarded. -/
theorem c6_seven_line_cutoff_witness :
    pytrim "   " = ""
    ∧ parse_info_file
        (FileContents.readable ("Win - 1.2.3" :: (["0xA Foo"] ++ "   " :: ["0xB Bar"]))) =
      parse_info_file (FileContents.readable ("Win - 1.2.3" :: (["0xA Foo"] ++ ["0xB Bar"]))) :=
  ⟨by decide,
   c6_seven_line_cutoff.1 "Win - 1.2.3" ["0xA Foo"] ["0xB Bar"] "   " (by decide)⟩

/-! ### Deduplication across merges (claim C2) -/

theorem mem_updateAt {β : Type} (m : List (String × β)) (k : String) (f : β → β)
    (q : String × β) (hq : q ∈ updateAt m k f) :
    q ∈ m ∨ ∃ p ∈ m, q = (p.1, f p.2) := by
  induction m with
  | nil => simp [updateAt] at hq
  | cons p rest ih =>
    by_cases h : p.1 = k
    · simp only [updateAt, if_pos h] at hq
      rcases List.mem_cons.mp hq with h1 | h1
      · right; exact ⟨p, List.mem_cons_self p rest, h1⟩
      · left; exact List.mem_cons_of_mem _ h1
    · simp only [updateAt, if_neg h] at hq
      rcases List.mem_cons.mp hq with h1 | h1
      · left; rw [h1]; exact List.mem_cons_self p rest
      · rcases ih h1 with h2 | ⟨p2, hp2, he⟩
        · left; exact List.mem_cons_of_mem _ h2
        · right; exact ⟨p2, List.mem_cons_of_mem _ hp2, he⟩

theorem nodup_mergeHexValues (ex newVals : List String)
    (h1 : ex.Nodup) (h2 : newVals.Nodup) : (mergeHexValues ex newVals).Nodup := by
  rw [mergeHexValues]
  refine List.Nodup.append h1 (h2.filter _) ?_
  intro a ha hb
  have h3 := List.of_mem_filter hb
  simp only [decide_eq_true_eq] at h3
  exact h3 ha

theorem valuesNodup_mergeMapStep (aggMap : List (String × List String)) (name : String)
    (vals : List String) (h1 : valuesNodup aggMap) (h2 : vals.Nodup) :
    valuesNodup (mergeMapStep aggMap (name, vals)) := by
  intro q hq
  have hacc1 : valuesNodup (if hasKey aggMap name then aggMap else aggMap ++ [(name, [])]) := by
    by_cases h : hasKey aggMap name
    · simpa [h] using h1
    · intro q2 hq2
      rw [if_neg h] at hq2
      rcases List.mem_append.mp hq2 with h3 | h3
      · exact h1 _ h3
      · have h4 : q2 = (name, ([] : List String)) := by simpa using h3
        rw [h4]
        exact List.nodup_nil
  simp only [mergeMapStep] at hq
  rcases mem_updateAt _ _ _ _ hq with h3 | ⟨p2, hp2, he⟩
  · exact hacc1 _ h3
  · rw [he]
    exact nodup_mergeHexValues _ _ (hacc1 _ hp2) h2

theorem valuesNodup_mergeMap (fileMap : List (String × List String)) :
    ∀ aggMap, valuesNodup aggMap → valuesNodup fileMap →
      valuesNodup (mergeMap aggMap fileMap) := by
  induction fileMap with
  | nil => intro aggMap h1 _; exact h1
  | cons p rest ih =>
    intro aggMap h1 h2
    have h2r : valuesNodup rest := fun q hq => h2 q (List.mem_cons_of_mem _ hq)
    have h2p : p.2.Nodup := h2 p (List.mem_cons_self p rest)
    rw [mergeMap, List.foldl_cons]
    exact ih _ (valuesNodup_mergeMapStep aggMap p.1 p.2 h1 h2p) h2r

theorem aggValuesNodup_mergeRecord (agg : List (String × AggregatedEntry))
    (r : ParsedRecord) (h1 : aggValuesNodup agg) (h2 : recordValuesNodup r) :
    aggValuesNodup (mergeRecord agg r) := by
  intro q hq
  have hagg1 : aggValuesNodup
      (if hasKey agg (vpOf r) then
        updateAt agg (vpOf r) (fun e => { e with builds := e.builds ++ [r.build] })
      else agg ++ [(vpOf r, ⟨[r.build], r.os, [], []⟩)]) := by
    by_cases h : hasKey agg (vpOf r)
    · rw [if_pos h]
      intro q2 hq2
      rcases mem_updateAt _ _ _ _ hq2 with h3 | ⟨p2, hp2, he⟩
      · exact h1 _ h3
      · rw [he]; exact h1 p2 hp2
    · rw [if_neg h]
      intro q2 hq2
      rcases List.mem_append.mp hq2 with h3 | h3
      · exact h1 _ h3
      · have h4 : q2 = (vpOf r, (⟨[r.build], r.os, [], []⟩ : AggregatedEntry)) := by
          simpa using h3
        rw [h4]
        constructor <;> intro x hx <;> simp at hx
  simp only [mergeRecord] at hq
  rcases mem_updateAt _ _ _ _ hq with h3 | ⟨p2, hp2, he⟩
  · exact hagg1 _ h3
  · rw [he]
    exact ⟨valuesNodup_mergeMap _ _ (hagg1 _ hp2).1 h2.1,
           valuesNodup_mergeMap _ _ (hagg1 _ hp2).2 h2.2⟩

theorem aggValuesNodup_foldl (files : List FileContents) :
    ∀ acc, aggValuesNodup acc →
      (∀ f ∈ files, ∀ r, parse_info_file f = some r → recordValuesNodup r) →
      aggValuesNodup (List.foldl mergeStep acc files) := by
  induction files with
  | nil => intro acc h1 _; exact h1
  | cons f rest ih =>
    intro acc h1 h2
    rw [List.foldl_cons]
    apply ih
    · cases hp : parse_info_file f with
      | none =>
        have hs : mergeStep acc f = acc := by unfold mergeStep; rw [hp]
        rw [hs]; exact h1
      | some r =>
        have hs : mergeStep acc f = mergeRecord acc r := by unfold mergeStep; rw [hp]
        rw [hs]
        exact aggValuesNodup_mergeRecord acc r h1 (h2 f (List.mem_cons_self f rest) r hp)
    · intro f2 hf2 r hr
      exact h2 f2 (List.mem_cons_of_mem _ hf2) r hr

theorem dlookup_mergeMapStep_self (aggMap : List (String × List String))
    (name : String) (vals l : List String) (h : dlookup aggMap name = some l) :
    dlookup (mergeMapStep aggMap (name, vals)) name = some (mergeHexValues l vals) := by
  have hk : hasKey aggMap name = true := by
    rw [hasKey_eq_isSome, h]; rfl
  simp only [mergeMapStep, hk, if_true]
  rw [dlookup_updateAt_self, h]
  rfl

theorem dlookup_mergeMapStep_ne (aggMap : List (String × List String))
    (p : String × List String) (name : String) (l : List String)
    (hne : name ≠ p.1) (h : dlookup aggMap name = some l) :
    dlookup (mergeMapStep aggMap p) name = some l := by
  simp only [mergeMapStep]
  rw [dlookup_updateAt_ne _ _ _ _ hne]
  cases hk : hasKey aggMap p.1 with
  | true => simpa [hk] using h
  | false =>
    simp only [hk, Bool.false_eq_true, if_false]
    rw [dlookup_append, dlookup_singleton]
    cases hkn : hasKey aggMap name with
    | true => simpa using h
    | false =>
      rw [dlookup_eq_none_of_hasKey_false _ _ hkn] at h
      cases h

theorem dlookup_mergeMap_extends (fileMap : List (String × List String)) :
    ∀ aggMap name l, dlookup aggMap name = some l →
      ∃ t, dlookup (mergeMap aggMap fileMap) name = some (l ++ t)
        ∧ ∀ x ∈ t, x ∉ l := by
  induction fileMap with
  | nil =>
    intro aggMap name l h
    exact ⟨[], by simpa using h, by simp⟩
  | cons p rest ih =>
    intro aggMap name l h
    rw [mergeMap, List.foldl_cons]
    by_cases hnp : name = p.1
    · subst hnp
      have h5 := dlookup_mergeMapStep_self aggMap p.1 p.2 l h
      rw [show (p.1, p.2) = p from rfl] at h5
      obtain ⟨t2, ht2, ht3⟩ := ih _ p.1 _ h5
      refine ⟨p.2.filter (fun x => decide (x ∉ l)) ++ t2, ?_, ?_⟩
      · show dlookup (mergeMap (mergeMapStep aggMap p) rest) p.1 = _
        rw [ht2, mergeHexValues, List.append_assoc]
      · intro x hx
        rcases List.mem_append.mp hx with h6 | h6
        · have h7 := List.of_mem_filter h6
          simpa using h7
        · intro hxl
          exact ht3 x h6 (by rw [mergeHexValues]; exact List.mem_append_left _ hxl)
    · have h5 := dlookup_mergeMapStep_ne aggMap p name l hnp h
      obtain ⟨t2, ht2, ht3⟩ := ih _ name _ h5
      exact ⟨t2, ht2, ht3⟩

/-- C2 counterexample: one file that reports the identical hex value twice
for the identical symbol name.  The within-file duplicates are only checked
against the values already in the aggregate (an empty list), so both survive
and the aggregated list for `Foo` contains a duplicate. -/
theorem c2_duplicates_counterexample :
    process_root_directory
        [FileContents.readable ["Win - 1.2.100", "0xA Foo", "0xA Foo"]] =
      [("1.2", ⟨["100"], "Win", [("Foo", ["0xA", "0xA"])], []⟩)]
    ∧ ¬ aggValuesNodup
        (process_root_directory
          [FileContents.readable ["Win - 1.2.100", "0xA Foo", "0xA Foo"]]) := by
  constructor
  · decide
  · decide

/-- C2 (amended): hex values are deduplicated across merge steps — a value
already present for a name is never re-added, and each merge only appends
values not yet present, so first-insertion order is preserved.
Consequently, when every contributing record's own per-name lists are
duplicate-free (in particular when no single file repeats a value for a
name), every per-name list in the final aggregate is duplicate-free.
Within-file duplicates, however, are not removed (see the counterexample). -/
theorem c2_dedup_amended :
    (∀ files, (∀ f ∈ files, ∀ r, parse_info_file f = some r → recordValuesNodup r) →
      aggValuesNodup (process_root_directory files))
    ∧ (∀ aggMap fileMap name l, dlookup aggMap name = some l →
        ∃ t, dlookup (mergeMap aggMap fileMap) name = some (l ++ t)
          ∧ ∀ x ∈ t, x ∉ l) := by
  constructor
  · intro files h
    exact aggValuesNodup_foldl files [] (by intro q hq; cases hq) h
  · intro aggMap fileMap name l h
    exact dlookup_mergeMap_extends fileMap aggMap name l h

/-- Witness for C2 (amended) on two files sharing prefix and symbol name. -/
theorem c2_dedup_amended_witness :
    (∀ f ∈ [FileContents.readable ["Win - 1.2.100", "0xAAAA Foo"],
            FileContents.readable ["Win - 1.2.200", "0xAAAA Foo", "0xBBBB Foo"]],
      ∀ r, parse_info_file f = some r → recordValuesNodup r)
    ∧ aggValuesNodup
        (process_root_directory
          [FileContents.readable ["Win - 1.2.100", "0xAAAA Foo"],
           FileContents.readable ["Win - 1.2.200", "0xAAAA Foo", "0xBBBB Foo"]])
    ∧ dlookup [("Foo", ["0xAAAA"])] "Foo" = some ["0xAAAA"]
    ∧ ∃ t, dlookup (mergeMap [("Foo", ["0xAAAA"])] [("Foo", ["0xAAAA", "0xBBBB"])]) "Foo" =
          some (["0xAAAA"] ++ t)
        ∧ ∀ x ∈ t, x ∉ ["0xAAAA"] :=
  ⟨by
     intro f hf r hr
     have h2 : f = FileContents.readable ["Win - 1.2.100", "0xAAAA Foo"]
         ∨ f = FileContents.readable ["Win - 1.2.200", "0xAAAA Foo", "0xBBBB Foo"] := by
       simpa using hf
     rcases h2 with rfl | rfl
     · rw [show parse_info_file (FileContents.readable ["Win - 1.2.100", "0xAAAA Foo"]) =
           some ⟨"1.2", "100", "Win", [("Foo", ["0xAAAA"])], []⟩ from rfl] at hr
       obtain rfl := Option.some.inj hr
       decide
     · rw [show parse_info_file
             (FileContents.readable ["Win - 1.2.200", "0xAAAA Foo", "0xBBBB Foo"]) =
           some ⟨"1.2", "200", "Win", [("Foo", ["0xAAAA", "0xBBBB"])], []⟩ from rfl] at hr
       obtain rfl := Option.some.inj hr
       decide,
   c2_dedup_amended.1
     [FileContents.readable ["Win - 1.2.100", "0xAAAA Foo"],
      FileContents.readable ["Win - 1.2.200", "0xAAAA Foo", "0xBBBB Foo"]]
     (by
       intro f hf r hr
       have h2 : f = FileContents.readable ["Win - 1.2.100", "0xAAAA Foo"]
           ∨ f = FileContents.readable ["Win - 1.2.200", "0xAAAA Foo", "0xBBBB Foo"] := by
         simpa using hf
       rcases h2 with rfl | rfl
       · rw [show parse_info_file (FileContents.readable ["Win - 1.2.100", "0xAAAA Foo"]) =
             some ⟨"1.2", "100", "Win", [("Foo", ["0xAAAA"])], []⟩ from rfl] at hr
         obtain rfl := Option.some.inj hr
         decide
       · rw [show parse_info_file
               (FileContents.readable ["Win - 1.2.200", "0xAAAA Foo", "0xBBBB Foo"]) =
             some ⟨"1.2", "200", "Win", [("Foo", ["0xAAAA", "0xBBBB"])], []⟩ from rfl] at hr
         obtain rfl := Option.some.inj hr
         decide),
   by decide,
   c2_dedup_amended.2 [("Foo", ["0xAAAA"])] [("Foo", ["0xAAAA", "0xBBBB"])] "Foo"
     ["0xAAAA"] (by decide)⟩
